import Mathlib

/-!
# Verification of the strudel-lorenz pipeline

Shallow embedding of the two scripts `src/lorenz-funky.js` and
`src/unnamed/part_000` (a second variant of the same pipeline).  JavaScript
numbers are modelled by `JSNum`: either a finite value (an exact rational) or
one of the non-finite values `NaN`, `Infinity`, `-Infinity`.  Arithmetic that
provably stays finite is carried out directly on `ℚ`; rounding of IEEE doubles
is not modelled (the spec only asks for reproducibility "to floating-point
tolerance", and every claim below is about exact structure, bounds and
substitution policy, none about rounding).  The irrational library functions
`Math.sqrt`, `Math.sin`, `Math.atan2` leave `ℚ`; the pipeline stages that use
them are parametrised by oracle functions standing for them, and every theorem
about those stages holds for an arbitrary oracle.
-/

set_option autoImplicit false

namespace SL

/-- Model of a JavaScript number: a finite rational, or `NaN`, `Infinity`,
`-Infinity`. -/
inductive JSNum where
  | num : ℚ → JSNum
  | nan : JSNum
  | inf : JSNum
  | ninf : JSNum
deriving DecidableEq, Repr

/-- `Number.isFinite` / the global `isFinite` on a number. -/
def JSNum.isFinite : JSNum → Bool
  | .num _ => true
  | _ => false

/-- The finite value of a `JSNum`, when it has one. -/
def JSNum.toQ? : JSNum → Option ℚ
  | .num q => some q
  | _ => none

/-- JavaScript `+` on numbers: `NaN` absorbs, `Infinity + -Infinity` is `NaN`,
infinities absorb finite values. -/
def jsAdd : JSNum → JSNum → JSNum
  | .nan, _ => .nan
  | _, .nan => .nan
  | .inf, .ninf => .nan
  | .ninf, .inf => .nan
  | .inf, _ => .inf
  | _, .inf => .inf
  | .ninf, _ => .ninf
  | _, .ninf => .ninf
  | .num a, .num b => .num (a + b)

/-- JavaScript array indexing `l[i]` with a number index, as used in numeric
position: an in-range index yields the element, any other index yields
`undefined`, which behaves as `NaN` in the arithmetic it is fed to here. -/
def atNum (l : List ℚ) (i : ℤ) : JSNum :=
  if h : 0 ≤ i ∧ i.toNat < l.length then .num (l.get ⟨i.toNat, h.2⟩) else .nan

/-- `safeNum` of both files: `Number(v)` is the identity on numbers, and a
non-finite value is replaced by the default.  (Source: lorenz-funky.js lines
8–11, part_000 lines 126–129.) -/
def safeNum (v : JSNum) (def_ : ℚ) : ℚ :=
  match v with
  | .num q => q
  | _ => def_

/-- `safeArr` of both files.  Its argument is always an array here, so the
`Array.isArray` wrapping branch is not reachable in this pipeline. -/
def safeArr (arr : List JSNum) (def_ : ℚ) : List ℚ :=
  arr.map fun v => safeNum v def_

/-- `clampArr` of both files: sanitize with default 0, then
`Math.max(lo, Math.min(hi, v))` on the (now finite) values. -/
def clampArr (arr : List JSNum) (lo hi : ℚ) : List ℚ :=
  (safeArr arr 0).map fun v => max lo (min hi v)

theorem safeArr_length (arr : List JSNum) (d : ℚ) :
    (safeArr arr d).length = arr.length := by
  simp [safeArr]

theorem clampArr_length (arr : List JSNum) (lo hi : ℚ) :
    (clampArr arr lo hi).length = arr.length := by
  simp [clampArr, safeArr]

theorem clampArr_mem_bounds (arr : List JSNum) (lo hi : ℚ) (hlh : lo ≤ hi) :
    ∀ v ∈ clampArr arr lo hi, lo ≤ v ∧ v ≤ hi := by
  intro v hv
  simp only [clampArr, safeArr, List.map_map, List.mem_map] at hv
  obtain ⟨w, -, rfl⟩ := hv
  constructor
  · exact le_max_left _ _
  · exact max_le hlh (le_trans (min_le_left _ _) le_rfl)

theorem safeNum_of_not_finite (v : JSNum) (d : ℚ) (h : ¬ v.isFinite) :
    safeNum v d = d := by
  cases v <;> simp [JSNum.isFinite] at h ⊢ <;> rfl

/-! ### `Math.min(...xs)` / `Math.max(...xs)` over a spread argument list -/

theorem foldl_min_le_init (l : List ℚ) : ∀ a : ℚ, l.foldl min a ≤ a := by
  induction l with
  | nil => intro a; simp
  | cons x xs ih =>
    intro a
    simpa using le_trans (ih (min a x)) (min_le_left a x)

theorem foldl_min_le_mem (l : List ℚ) : ∀ a : ℚ, ∀ b ∈ l, l.foldl min a ≤ b := by
  induction l with
  | nil => intro a b hb; cases hb
  | cons x xs ih =>
    intro a b hb
    rcases List.mem_cons.mp hb with rfl | hb
    · simpa using le_trans (foldl_min_le_init xs (min a b)) (min_le_right a b)
    · simpa using ih (min a x) b hb

theorem foldl_min_mem (l : List ℚ) : ∀ a : ℚ, l.foldl min a = a ∨ l.foldl min a ∈ l := by
  induction l with
  | nil => intro a; left; rfl
  | cons x xs ih =>
    intro a
    rcases ih (min a x) with h | h
    · rcases min_choice a x with hax | hax
      · left; simpa [h] using hax
      · right; rw [List.foldl_cons, h, hax]; exact List.mem_cons_self x xs
    · right; exact List.mem_cons_of_mem x (by simpa using h)

theorem le_foldl_max_init (l : List ℚ) : ∀ a : ℚ, a ≤ l.foldl max a := by
  induction l with
  | nil => intro a; simp
  | cons x xs ih =>
    intro a
    simpa using le_trans (le_max_left a x) (ih (max a x))

theorem le_foldl_max_mem (l : List ℚ) : ∀ a : ℚ, ∀ b ∈ l, b ≤ l.foldl max a := by
  induction l with
  | nil => intro a b hb; cases hb
  | cons x xs ih =>
    intro a b hb
    rcases List.mem_cons.mp hb with rfl | hb
    · simpa using le_trans (le_max_right a b) (le_foldl_max_init xs (max a b))
    · simpa using ih (max a x) b hb

theorem foldl_max_mem (l : List ℚ) : ∀ a : ℚ, l.foldl max a = a ∨ l.foldl max a ∈ l := by
  induction l with
  | nil => intro a; left; rfl
  | cons x xs ih =>
    intro a
    rcases ih (max a x) with h | h
    · rcases max_choice a x with hax | hax
      · left; simpa [h] using hax
      · right; rw [List.foldl_cons, h, hax]; exact List.mem_cons_self x xs
    · right; exact List.mem_cons_of_mem x (by simpa using h)

/-! ### `norm` and `diff` (identical in both files) -/

/-- `norm` of both files (lorenz-funky.js lines 47–58, part_000 lines 66–81):
min–max scaling over the finite samples, with `0.5` substituted when there are
no finite samples, when the range is degenerate, or at a non-finite element.
`Math.min(...finite)` / `Math.max(...finite)` are folds over the list; the
source's `!isFinite(mn)`, `!isFinite(mx)` and `isFinite(normalized)` checks
are vacuous over exact rationals (no overflow, and `mx - mn ≠ 0` is already
guarded by `mn === mx`), so the corresponding branches collapse here. -/
def norm (arr : List JSNum) : List ℚ :=
  match arr.filterMap JSNum.toQ? with
  | [] => arr.map fun _ => 1/2
  | f :: fs =>
    let mn := fs.foldl min f
    let mx := fs.foldl max f
    if mn = mx then arr.map fun _ => 1/2
    else arr.map fun v =>
      match v with
      | .num q => (q - mn) / (mx - mn)
      | _ => 1/2

/-- `norm` applied to an array of provably finite numbers. -/
def normQ (l : List ℚ) : List ℚ :=
  norm (l.map JSNum.num)

/-- `diff` of both files (lorenz-funky.js line 60, part_000 line 84):
`arr.map((v,i) => i ? v - arr[i-1] : 0)`; the index is in range whenever read,
so the `getD` default is never used. -/
def diff (arr : List ℚ) : List ℚ :=
  arr.enum.map fun p => if p.1 = 0 then 0 else p.2 - arr.getD (p.1 - 1) 0

theorem norm_length (arr : List JSNum) : (norm arr).length = arr.length := by
  rw [norm]
  rcases arr.filterMap JSNum.toQ? with _ | ⟨f, fs⟩
  · simp
  · dsimp only
    split <;> simp

theorem diff_length (arr : List ℚ) : (diff arr).length = arr.length := by
  simp [diff]

theorem foldl_min_le_all (f q : ℚ) (fs : List ℚ) (hq : q ∈ f :: fs) :
    fs.foldl min f ≤ q := by
  rcases List.mem_cons.mp hq with rfl | hq
  · exact foldl_min_le_init fs q
  · exact foldl_min_le_mem fs f q hq

theorem le_foldl_max_all (f q : ℚ) (fs : List ℚ) (hq : q ∈ f :: fs) :
    q ≤ fs.foldl max f := by
  rcases List.mem_cons.mp hq with rfl | hq
  · exact le_foldl_max_init fs q
  · exact le_foldl_max_mem fs f q hq

theorem foldl_min_mem_cons (f : ℚ) (fs : List ℚ) : fs.foldl min f ∈ f :: fs := by
  rcases foldl_min_mem fs f with h | h
  · rw [h]; exact List.mem_cons_self f fs
  · exact List.mem_cons_of_mem f h

theorem foldl_max_mem_cons (f : ℚ) (fs : List ℚ) : fs.foldl max f ∈ f :: fs := by
  rcases foldl_max_mem fs f with h | h
  · rw [h]; exact List.mem_cons_self f fs
  · exact List.mem_cons_of_mem f h

/-- A non-finite element of the input is normalized to the neutral midpoint,
whatever the rest of the array holds. -/
theorem norm_nonfinite (arr : List JSNum) (i : ℕ) (v : JSNum)
    (hv : arr[i]? = some v) (hnf : v.isFinite = false) :
    (norm arr)[i]? = some (1/2) := by
  rw [norm]
  rcases arr.filterMap JSNum.toQ? with _ | ⟨f, fs⟩
  · simp only [List.getElem?_map, hv, Option.map_some']
  · dsimp only
    split
    · simp only [List.getElem?_map, hv, Option.map_some']
    · simp only [List.getElem?_map, hv, Option.map_some']
      cases v <;> simp_all [JSNum.isFinite]

/-- When the finite samples have a genuine minimum `mn` and maximum `mx` with
`mn ≠ mx`, each finite element is min–max scaled. -/
theorem norm_scaled (arr : List JSNum) (mn mx : ℚ)
    (hmn : mn ∈ arr.filterMap JSNum.toQ? ∧ ∀ q ∈ arr.filterMap JSNum.toQ?, mn ≤ q)
    (hmx : mx ∈ arr.filterMap JSNum.toQ? ∧ ∀ q ∈ arr.filterMap JSNum.toQ?, q ≤ mx)
    (hne : mn ≠ mx) (i : ℕ) (q : ℚ) (hq : arr[i]? = some (.num q)) :
    (norm arr)[i]? = some ((q - mn) / (mx - mn)) := by
  rw [norm]
  rcases hf : arr.filterMap JSNum.toQ? with _ | ⟨f, fs⟩
  · rw [hf] at hmn; cases hmn.1
  · rw [hf] at hmn hmx
    have hmn' : fs.foldl min f = mn :=
      le_antisymm (foldl_min_le_all f mn fs hmn.1)
        (hmn.2 _ (foldl_min_mem_cons f fs))
    have hmx' : fs.foldl max f = mx :=
      le_antisymm (hmx.2 _ (foldl_max_mem_cons f fs))
        (le_foldl_max_all f mx fs hmx.1)
    dsimp only
    rw [hmn', hmx', if_neg hne]
    simp [List.getElem?_map, hq]

/-- Every element `norm` produces lies in the unit interval. -/
theorem norm_mem_unit (arr : List JSNum) : ∀ v ∈ norm arr, 0 ≤ v ∧ v ≤ 1 := by
  rw [norm]
  rcases hf : arr.filterMap JSNum.toQ? with _ | ⟨f, fs⟩
  · intro v hv
    rcases List.mem_map.mp hv with ⟨w, -, rfl⟩
    norm_num
  · dsimp only
    split
    · intro v hv
      rcases List.mem_map.mp hv with ⟨w, -, rfl⟩
      norm_num
    · rename_i hne
      intro v hv
      rcases List.mem_map.mp hv with ⟨w, hw, rfl⟩
      cases w with
      | num q =>
        have hqmem : q ∈ f :: fs := by
          rw [← hf]; exact List.mem_filterMap.mpr ⟨.num q, hw, rfl⟩
        have h1 : fs.foldl min f ≤ q := foldl_min_le_all f q fs hqmem
        have h2 : q ≤ fs.foldl max f := le_foldl_max_all f q fs hqmem
        have hlt : fs.foldl min f < fs.foldl max f :=
          lt_of_le_of_ne (le_trans h1 h2) hne
        constructor
        · exact div_nonneg (sub_nonneg.mpr h1) (le_of_lt (sub_pos.mpr hlt))
        · rw [div_le_one (sub_pos.mpr hlt)]
          exact sub_le_sub_right h2 _
      | nan => norm_num
      | inf => norm_num
      | ninf => norm_num

/-- Normalizing a constant array (also a constant array of a non-finite value)
yields the neutral midpoint everywhere. -/
theorem norm_const (arr : List JSNum) (c : JSNum) (hc : ∀ v ∈ arr, v = c) :
    norm arr = arr.map fun _ => 1/2 := by
  cases c with
  | num q =>
    rcases hf : arr.filterMap JSNum.toQ? with _ | ⟨f, fs⟩
    · rw [norm, hf]
    · have hall : ∀ x ∈ (f :: fs), x = q := by
        intro x hx
        rw [← hf] at hx
        rcases List.mem_filterMap.mp hx with ⟨w, hw, htoq⟩
        have hwq := hc w hw
        rw [hwq] at htoq
        simpa [JSNum.toQ?] using htoq.symm
      have hmn : fs.foldl min f = q := hall _ (foldl_min_mem_cons f fs)
      have hmx : fs.foldl max f = q := hall _ (foldl_max_mem_cons f fs)
      rw [norm, hf]
      dsimp only
      rw [hmn, hmx, if_pos rfl]
  | nan =>
    rw [norm]
    have hf : arr.filterMap JSNum.toQ? = [] := by
      rw [List.filterMap_eq_nil_iff]
      intro a ha; rw [hc a ha]; rfl
    rw [hf]
  | inf =>
    rw [norm]
    have hf : arr.filterMap JSNum.toQ? = [] := by
      rw [List.filterMap_eq_nil_iff]
      intro a ha; rw [hc a ha]; rfl
    rw [hf]
  | ninf =>
    rw [norm]
    have hf : arr.filterMap JSNum.toQ? = [] := by
      rw [List.filterMap_eq_nil_iff]
      intro a ha; rw [hc a ha]; rfl
    rw [hf]

theorem diff_head (arr : List ℚ) (h : arr ≠ []) : (diff arr)[0]? = some 0 := by
  rcases arr with _ | ⟨a, rest⟩
  · cases h rfl
  · simp [diff, List.getElem?_map, List.getElem?_enum]

theorem diff_succ (arr : List ℚ) (i : ℕ) (h1 : 1 ≤ i) (h2 : i < arr.length) :
    (diff arr)[i]? = some (arr.getD i 0 - arr.getD (i-1) 0) := by
  obtain ⟨v, hv⟩ : ∃ v, arr[i]? = some v := by
    rcases hx : arr[i]? with _ | v
    · rw [List.getElem?_eq_none_iff] at hx; omega
    · exact ⟨v, rfl⟩
  have hgd : arr.getD i 0 = v := by simp [List.getD, hv]
  simp only [diff, List.getElem?_map, List.getElem?_enum, hv, Option.map_some']
  rw [if_neg (by omega), hgd]

/-! ### The state and the RK4 integrator -/

/-- A trajectory point `{ x, y, z }`. -/
structure P3 where
  x : ℚ
  y : ℚ
  z : ℚ
deriving DecidableEq, Repr

namespace Funky

/-- One pass of the integration loop body of lorenz-funky.js lines 23–40:
the four stages `k1..k4` and the weighted update of `x`, `y`, `z`. -/
def lorenzStep (sigma rho beta dt : ℚ) (p : P3) : P3 :=
  let dx := fun (x y : ℚ) => sigma * (y - x)
  let dy := fun (x y z : ℚ) => x * (rho - z) - y
  let dz := fun (x y z : ℚ) => x * y - beta * z
  let k1x := dx p.x p.y
  let k1y := dy p.x p.y p.z
  let k1z := dz p.x p.y p.z
  let k2x := dx (p.x + 0.5*dt*k1x) (p.y + 0.5*dt*k1y)
  let k2y := dy (p.x + 0.5*dt*k1x) (p.y + 0.5*dt*k1y) (p.z + 0.5*dt*k1z)
  let k2z := dz (p.x + 0.5*dt*k1x) (p.y + 0.5*dt*k1y) (p.z + 0.5*dt*k1z)
  let k3x := dx (p.x + 0.5*dt*k2x) (p.y + 0.5*dt*k2y)
  let k3y := dy (p.x + 0.5*dt*k2x) (p.y + 0.5*dt*k2y) (p.z + 0.5*dt*k2z)
  let k3z := dz (p.x + 0.5*dt*k2x) (p.y + 0.5*dt*k2y) (p.z + 0.5*dt*k2z)
  let k4x := dx (p.x + dt*k3x) (p.y + dt*k3y)
  let k4y := dy (p.x + dt*k3x) (p.y + dt*k3y) (p.z + dt*k3z)
  let k4z := dz (p.x + dt*k3x) (p.y + dt*k3y) (p.z + dt*k3z)
  ⟨p.x + (dt/6) * (k1x + 2*k2x + 2*k3x + k4x),
   p.y + (dt/6) * (k1y + 2*k2y + 2*k3y + k4y),
   p.z + (dt/6) * (k1z + 2*k2z + 2*k3z + k4z)⟩

/-- The `for` loop of `lorenz`: iterate the step, pushing each updated state. -/
def lorenzGo (sigma rho beta dt : ℚ) : ℕ → P3 → List P3
  | 0, _ => []
  | n+1, p =>
    let p' := lorenzStep sigma rho beta dt p
    p' :: lorenzGo sigma rho beta dt n p'

/-- `lorenz` of lorenz-funky.js lines 16–42; its JS default arguments are
`steps = 4096`, `dt = 0.01`, `sigma = 10`, `rho = 28`, `beta = 8/3`. -/
def lorenz (steps : ℕ) (dt sigma rho beta : ℚ) : List P3 :=
  lorenzGo sigma rho beta dt steps ⟨1, 1, 1⟩

end Funky

namespace PartB

/-- One pass of the integration loop body of part_000 lines 33–58 (same text
as the lorenz-funky.js loop, plus comments). -/
def lorenzStep (sigma rho beta dt : ℚ) (p : P3) : P3 :=
  let dx := fun (x y : ℚ) => sigma * (y - x)
  let dy := fun (x y z : ℚ) => x * (rho - z) - y
  let dz := fun (x y z : ℚ) => x * y - beta * z
  let k1x := dx p.x p.y
  let k1y := dy p.x p.y p.z
  let k1z := dz p.x p.y p.z
  let k2x := dx (p.x + 0.5*dt*k1x) (p.y + 0.5*dt*k1y)
  let k2y := dy (p.x + 0.5*dt*k1x) (p.y + 0.5*dt*k1y) (p.z + 0.5*dt*k1z)
  let k2z := dz (p.x + 0.5*dt*k1x) (p.y + 0.5*dt*k1y) (p.z + 0.5*dt*k1z)
  let k3x := dx (p.x + 0.5*dt*k2x) (p.y + 0.5*dt*k2y)
  let k3y := dy (p.x + 0.5*dt*k2x) (p.y + 0.5*dt*k2y) (p.z + 0.5*dt*k2z)
  let k3z := dz (p.x + 0.5*dt*k2x) (p.y + 0.5*dt*k2y) (p.z + 0.5*dt*k2z)
  let k4x := dx (p.x + dt*k3x) (p.y + dt*k3y)
  let k4y := dy (p.x + dt*k3x) (p.y + dt*k3y) (p.z + dt*k3z)
  let k4z := dz (p.x + dt*k3x) (p.y + dt*k3y) (p.z + dt*k3z)
  ⟨p.x + (dt/6) * (k1x + 2*k2x + 2*k3x + k4x),
   p.y + (dt/6) * (k1y + 2*k2y + 2*k3y + k4y),
   p.z + (dt/6) * (k1z + 2*k2z + 2*k3z + k4z)⟩

/-- The `for` loop of part_000's `lorenz`. -/
def lorenzGo (sigma rho beta dt : ℚ) : ℕ → P3 → List P3
  | 0, _ => []
  | n+1, p =>
    let p' := lorenzStep sigma rho beta dt p
    p' :: lorenzGo sigma rho beta dt n p'

/-- `lorenz` of part_000 lines 25–60; its JS default arguments are
`steps = 1536`, `dt = 0.01`, `sigma = 10`, `rho = 28`, `beta = 8/3`. -/
def lorenz (steps : ℕ) (dt sigma rho beta : ℚ) : List P3 :=
  lorenzGo sigma rho beta dt steps ⟨1, 1, 1⟩

end PartB

/-- The Lorenz vector field, written from the spec:
`dx/dt = σ(y-x)`, `dy/dt = x(ρ-z)-y`, `dz/dt = xy-βz`. -/
def lorenzField (sigma rho beta : ℚ) (p : P3) : P3 :=
  ⟨sigma * (p.y - p.x), p.x * (rho - p.z) - p.y, p.x * p.y - beta * p.z⟩

/-- The classic four-stage Runge-Kutta update, written from the spec:
`x' = x + (h/6)(k1 + 2 k2 + 2 k3 + k4)` with `k1..k4` evaluated at the
standard intermediate points. -/
def rk4Step (h : ℚ) (f : P3 → P3) (p : P3) : P3 :=
  let k1 := f p
  let k2 := f ⟨p.x + h/2 * k1.x, p.y + h/2 * k1.y, p.z + h/2 * k1.z⟩
  let k3 := f ⟨p.x + h/2 * k2.x, p.y + h/2 * k2.y, p.z + h/2 * k2.z⟩
  let k4 := f ⟨p.x + h * k3.x, p.y + h * k3.y, p.z + h * k3.z⟩
  ⟨p.x + h/6 * (k1.x + 2 * k2.x + 2 * k3.x + k4.x),
   p.y + h/6 * (k1.y + 2 * k2.y + 2 * k3.y + k4.y),
   p.z + h/6 * (k1.z + 2 * k2.z + 2 * k3.z + k4.z)⟩

/-- The loop body of the funky integrator is exactly one RK4 step of the
Lorenz field. -/
theorem lorenzStep_eq_rk4 (sigma rho beta dt : ℚ) (p : P3) :
    Funky.lorenzStep sigma rho beta dt p =
      rk4Step dt (lorenzField sigma rho beta) p := by
  cases p with
  | mk x y z =>
    show P3.mk _ _ _ = P3.mk _ _ _
    simp only [Funky.lorenzStep, rk4Step, lorenzField, P3.mk.injEq]
    refine ⟨?_, ?_, ?_⟩ <;> ring

theorem lorenzGo_length (sigma rho beta dt : ℚ) :
    ∀ (n : ℕ) (p : P3), (Funky.lorenzGo sigma rho beta dt n p).length = n := by
  intro n
  induction n with
  | zero => intro p; rfl
  | succ n ih => intro p; simp [Funky.lorenzGo, ih]

theorem lorenzGo_getElem? (sigma rho beta dt : ℚ) :
    ∀ (n i : ℕ) (p : P3), i < n →
      (Funky.lorenzGo sigma rho beta dt n p)[i]? =
        some ((Funky.lorenzStep sigma rho beta dt)^[i+1] p) := by
  intro n
  induction n with
  | zero => intro i p h; omega
  | succ n ih =>
    intro i p hi
    cases i with
    | zero => simp [Funky.lorenzGo]
    | succ i =>
      simp only [Funky.lorenzGo, List.getElem?_cons_succ]
      rw [ih i _ (by omega), ← Function.iterate_succ_apply]

/-- The two files' integrator loop bodies are the same function. -/
theorem lorenzStep_funky_eq_partB :
    @Funky.lorenzStep = @PartB.lorenzStep := rfl

theorem lorenzGo_funky_eq_partB (sigma rho beta dt : ℚ) :
    ∀ (n : ℕ) (p : P3),
      Funky.lorenzGo sigma rho beta dt n p = PartB.lorenzGo sigma rho beta dt n p := by
  intro n
  induction n with
  | zero => intro p; rfl
  | succ n ih =>
    intro p
    simp only [Funky.lorenzGo, PartB.lorenzGo]
    rw [lorenzStep_funky_eq_partB, ih]

/-! ### Indexing facts for the sanitizers -/

theorem jsAdd_nan_right (a : JSNum) : jsAdd a .nan = .nan := by
  cases a <;> rfl

theorem jsAdd_nan_left (a : JSNum) : jsAdd .nan a = .nan := by
  cases a <;> rfl

theorem clampArr_getElem? (arr : List JSNum) (lo hi : ℚ) (i : ℕ) :
    (clampArr arr lo hi)[i]? =
      arr[i]?.map fun v => max lo (min hi (safeNum v 0)) := by
  simp only [clampArr, safeArr, List.map_map, List.getElem?_map]
  rfl

theorem atNum_out_of_range (l : List ℚ) (i : ℤ) (h : ¬ (0 ≤ i ∧ i.toNat < l.length)) :
    atNum l i = .nan := by
  rw [atNum, dif_neg h]

/-! ### The lorenz-funky.js feature mapper -/

namespace Funky

/-- The C minor pentatonic degrees (lorenz-funky.js line 81). -/
def scale : List ℚ := [0, 3, 5, 7, 10]

/-- The octave offsets (lorenz-funky.js line 82). -/
def octaves : List ℚ := [0, 12, 24, 36]

/-- `scaleDegree`, `octave` and `notes` of lorenz-funky.js lines 85–91, as a
function of the normalized coordinate series.  `scale[deg]` / `octaves[...]`
with an out-of-range index is `undefined` in JS and makes the sum `NaN`, which
`atNum` renders directly as `nan`. -/
def notesOf (xs ys : List ℚ) : List JSNum :=
  let scaleDegree := xs.map fun v => ⌊v * (scale.length : ℚ)⌋
  let octave := ys.map fun v => ⌊v * (octaves.length : ℚ)⌋
  scaleDegree.enum.map fun p =>
    jsAdd (jsAdd (.num 48)
      (match octave[p.1]? with
       | some o => atNum octaves o
       | none => .nan))
      (atNum scale p.2)

/-- The trajectory of line 44: `lorenz(4096, 0.01)` with default constants. -/
def pts : List P3 := lorenz 4096 0.01 10 28 (8/3)

def xs : List ℚ := normQ (pts.map P3.x)
def ys : List ℚ := normQ (pts.map P3.y)
def zs : List ℚ := normQ (pts.map P3.z)

def dxs : List ℚ := diff (pts.map P3.x)
def dys : List ℚ := diff (pts.map P3.y)
def dzs : List ℚ := diff (pts.map P3.z)

/-- `rawSpd` of lines 73–75; `Math.sqrt` is the oracle argument, and
`dxs[i] || 0` only replaces an out-of-range read (never hit: the arrays share
the trajectory length) or a zero by `0`, which `getD _ 0` renders. -/
def rawSpd (sqrtFn : ℚ → ℚ) : List ℚ :=
  (List.range pts.length).map fun i =>
    sqrtFn ((dxs.getD i 0)^2 + (dys.getD i 0)^2 + (dzs.getD i 0)^2)

def spd (sqrtFn : ℚ → ℚ) : List ℚ := normQ (rawSpd sqrtFn)

def notes : List JSNum := notesOf xs ys

/-- `cut` of line 94. -/
def cut : List ℚ := zs.map fun v => 300 + v * 8000

/-- `pan` of lines 97–100, with `Math.sin` and `Math.atan2` as oracles. -/
def pan (sinFn : ℚ → ℚ) (atan2Fn : ℚ → ℚ → ℚ) : List ℚ :=
  xs.enum.map fun p => sinFn (atan2Fn (ys.getD p.1 0 - 0.5) (p.2 - 0.5))

/-- `gain` of lines 103–107, with `Math.sin` as oracle. -/
def gain (sqrtFn sinFn : ℚ → ℚ) : List ℚ :=
  (spd sqrtFn).enum.map fun p => (0.3 + 0.5 * p.2) + 0.1 * sinFn ((p.1 : ℚ) * 0.05)

/-- Lines 126–129. -/
def NOTES_SAFE : List ℚ := clampArr notes 36 96
def CUT_SAFE : List ℚ := clampArr (cut.map .num) 100 12000
def PAN_SAFE (sinFn : ℚ → ℚ) (atan2Fn : ℚ → ℚ → ℚ) : List ℚ :=
  clampArr ((pan sinFn atan2Fn).map .num) (-1) 1
def GAIN_SAFE (sqrtFn sinFn : ℚ → ℚ) : List ℚ :=
  clampArr ((gain sqrtFn sinFn).map .num) 0.1 0.9

/-- Lines 157–160: every 16th entry, then clamp. -/
def padNotes : List JSNum :=
  notes.enum.filterMap fun p => if p.1 % 16 = 0 then some p.2 else none
def padCut : List ℚ :=
  cut.enum.filterMap fun p => if p.1 % 16 = 0 then some p.2 else none
def PAD_NOTES_SAFE : List ℚ := clampArr padNotes 36 84
def PAD_CUT_SAFE : List ℚ := clampArr (padCut.map .num) 200 3000

end Funky

/-! ### The part_000 feature mapper -/

namespace PartB

/-- `clamp` of part_000 lines 19–22: a non-finite value becomes the midpoint,
then `Math.max(min, Math.min(max, v))`. -/
def clamp (val : JSNum) (mn mx : ℚ) : ℚ :=
  let v := match val with
    | .num q => q
    | _ => (mn + mx) / 2
  max mn (min mx v)

/-- The trajectory of line 62: `lorenz(1536, 0.01)` with default constants. -/
def pts : List P3 := lorenz 1536 0.01 10 28 (8/3)

def dxs : List ℚ := diff (pts.map P3.x)
def dys : List ℚ := diff (pts.map P3.y)
def dzs : List ℚ := diff (pts.map P3.z)

def xs : List ℚ := normQ (pts.map P3.x)
def ys : List ℚ := normQ (pts.map P3.y)
def zs : List ℚ := normQ (pts.map P3.z)

def midiBase : ℚ := 60
def span : ℚ := 24

/-- `notes` of line 99; `Math.round(t)` is `⌊t + 0.5⌋`. -/
def notes : List ℚ :=
  xs.map fun v => clamp (.num ((⌊midiBase + v * span + 0.5⌋ : ℤ) : ℚ)) 36 96

/-- `cut` of line 100. -/
def cut : List ℚ := ys.map fun v => clamp (.num (200 + v * 5000)) 200 8000

/-- `pan` of line 101. -/
def pan : List ℚ := zs.map fun v => clamp (.num (v * 2 - 1)) (-1) 1

/-- `rawSpd` of lines 104–110, with `Math.sqrt` as oracle. -/
def rawSpd (sqrtFn : ℚ → ℚ) : List ℚ :=
  (List.range pts.length).map fun i =>
    sqrtFn ((dxs.getD i 0)^2 + (dys.getD i 0)^2 + (dzs.getD i 0)^2)

def spd (sqrtFn : ℚ → ℚ) : List ℚ := normQ (rawSpd sqrtFn)

/-- `gain` of line 113. -/
def gain (sqrtFn : ℚ → ℚ) : List ℚ :=
  (spd sqrtFn).map fun v => clamp (.num (0.2 + 0.6 * v)) 0.1 1.0

/-- Lines 134–138. -/
def NOTES_SAFE : List ℚ := clampArr (notes.map .num) 36 96
def CUT_SAFE : List ℚ :=
  clampArr ((ys.map fun v => 200 + v * 5000).map .num) 20 12000
def PAN_SAFE : List ℚ := clampArr ((zs.map fun v => v * 2 - 1).map .num) (-1) 1
def SPD_SAFE (sqrtFn : ℚ → ℚ) : List ℚ := safeArr ((spd sqrtFn).map .num) 0
def GAIN_SAFE (sqrtFn : ℚ → ℚ) : List ℚ :=
  clampArr (((SPD_SAFE sqrtFn).map fun v => 0.2 + 0.6 * v).map .num) 0 1

/-- Lines 161–167. -/
def roots : List ℚ :=
  (notes.enum.filterMap fun p => if p.1 % 8 = 0 then some p.2 else none).map
    fun n => clamp (.num n) 36 84
def thirds : List ℚ := roots.map fun r => clamp (.num (r + 4)) 36 96
def fifths : List ℚ := roots.map fun r => clamp (.num (r + 7)) 36 96
def ROOTS_SAFE : List ℚ := clampArr (roots.map .num) 36 96
def THIRDS_SAFE : List ℚ := clampArr (thirds.map .num) 36 96
def FIFTHS_SAFE : List ℚ := clampArr (fifths.map .num) 36 96

end PartB

/-! ### Facts feeding the note-dropout analysis -/

theorem filterMap_toQ_map_num (l : List ℚ) :
    (l.map JSNum.num).filterMap JSNum.toQ? = l := by
  rw [List.filterMap_map]
  have h : JSNum.toQ? ∘ JSNum.num = some := rfl
  rw [h, List.filterMap_some]

/-- A non-constant all-finite axis attains the normalized value `1` (at each
index holding the maximum sample). -/
theorem normQ_attains_one (l : List ℚ) (hne : ∃ a ∈ l, ∃ b ∈ l, a ≠ b) :
    ∃ i : ℕ, (normQ l)[i]? = some 1 := by
  obtain ⟨a, ha, b, hb, hab⟩ := hne
  obtain ⟨f, fs, rfl⟩ : ∃ f fs, l = f :: fs := by
    cases l with
    | nil => cases ha
    | cons f fs => exact ⟨f, fs, rfl⟩
  have hmnb : ∀ q ∈ f :: fs, fs.foldl min f ≤ q := fun q hq => foldl_min_le_all f q fs hq
  have hmxb : ∀ q ∈ f :: fs, q ≤ fs.foldl max f := fun q hq => le_foldl_max_all f q fs hq
  have hnemx : fs.foldl min f ≠ fs.foldl max f := by
    intro h
    refine hab ?_
    have h1 := hmnb a ha
    have h2 := hmxb a ha
    have h3 := hmnb b hb
    have h4 := hmxb b hb
    linarith
  obtain ⟨i, hi⟩ := List.mem_iff_getElem?.mp (foldl_max_mem_cons f fs)
  refine ⟨i, ?_⟩
  have harr : ((f :: fs).map JSNum.num)[i]? = some (.num (fs.foldl max f)) := by
    rw [List.getElem?_map, hi]
    rfl
  have hnorm := norm_scaled ((f :: fs).map JSNum.num)
    (fs.foldl min f) (fs.foldl max f)
    (by rw [filterMap_toQ_map_num]; exact ⟨foldl_min_mem_cons f fs, hmnb⟩)
    (by rw [filterMap_toQ_map_num]; exact ⟨foldl_max_mem_cons f fs, hmxb⟩)
    hnemx i (fs.foldl max f) harr
  rw [normQ, hnorm]
  congr 1
  exact div_self (sub_ne_zero.mpr (Ne.symm hnemx))

/-- At an index where the normalized x-series is exactly `1` (or the
normalized y-series is exactly `1`), the funky note computation indexes one
past the end of `scale` (resp. `octaves`) and yields `NaN`. -/
theorem notesOf_nan (xs ys : List ℚ) (i : ℕ) (hi : i < xs.length)
    (h : xs[i]? = some 1 ∨ ys[i]? = some 1) :
    (Funky.notesOf xs ys)[i]? = some .nan := by
  obtain ⟨v, hv⟩ : ∃ v, xs[i]? = some v := by
    rcases hx : xs[i]? with _ | v
    · rw [List.getElem?_eq_none_iff] at hx; omega
    · exact ⟨v, rfl⟩
  simp only [Funky.notesOf, List.getElem?_map, List.getElem?_enum, hv,
    Option.map_some']
  rcases h with h | h
  · rw [hv] at h
    injection h with h
    subst h
    have hdeg : ⌊(1 : ℚ) * (Funky.scale.length : ℚ)⌋ = 5 := by
      norm_num [Funky.scale]
    rw [hdeg]
    have hoob : atNum Funky.scale 5 = .nan := by
      apply atNum_out_of_range
      simp [Funky.scale]
    rw [hoob, jsAdd_nan_right]
  · simp only [List.getElem?_map, h, Option.map_some']
    have hoct : ⌊(1 : ℚ) * (Funky.octaves.length : ℚ)⌋ = 4 := by
      norm_num [Funky.octaves]
    rw [hoct]
    have hoob : atNum Funky.octaves 4 = .nan := by
      apply atNum_out_of_range
      simp [Funky.octaves]
    rw [hoob, jsAdd_nan_right, jsAdd_nan_left]

/-- The sanitize stage turns the `NaN` note into the default `0` and the clamp
raises it to the lower bound `36`. -/
theorem clampArr_at_nan (arr : List JSNum) (i : ℕ) (hnan : arr[i]? = some .nan) :
    (clampArr arr 36 96)[i]? = some 36 := by
  rw [clampArr_getElem?, hnan, Option.map_some']
  norm_num [safeNum]

theorem notesOf_length (xs ys : List ℚ) : (Funky.notesOf xs ys).length = xs.length := by
  simp [Funky.notesOf]

/-! ## The claims -/

/-- C1: every element of every clamped numeric control series (in both files)
is a finite number within that series' declared clamp bounds; in general, for
`lo ≤ hi`, every element of `clampArr(arr, lo, hi)` lies in `[lo, hi]` — and
is finite by construction, `clampArr` producing plain rationals whatever
non-finite values the input held. -/
theorem claim1_control_series_bounded :
    (∀ (arr : List JSNum) (lo hi : ℚ), lo ≤ hi →
       ∀ v ∈ clampArr arr lo hi, lo ≤ v ∧ v ≤ hi) ∧
    (∀ v ∈ Funky.NOTES_SAFE, 36 ≤ v ∧ v ≤ 96) ∧
    (∀ v ∈ Funky.CUT_SAFE, 100 ≤ v ∧ v ≤ 12000) ∧
    (∀ (sinFn : ℚ → ℚ) (atan2Fn : ℚ → ℚ → ℚ),
       ∀ v ∈ Funky.PAN_SAFE sinFn atan2Fn, -1 ≤ v ∧ v ≤ 1) ∧
    (∀ (sqrtFn sinFn : ℚ → ℚ),
       ∀ v ∈ Funky.GAIN_SAFE sqrtFn sinFn, 0.1 ≤ v ∧ v ≤ 0.9) ∧
    (∀ v ∈ Funky.PAD_NOTES_SAFE, 36 ≤ v ∧ v ≤ 84) ∧
    (∀ v ∈ Funky.PAD_CUT_SAFE, 200 ≤ v ∧ v ≤ 3000) ∧
    (∀ v ∈ PartB.NOTES_SAFE, 36 ≤ v ∧ v ≤ 96) ∧
    (∀ v ∈ PartB.CUT_SAFE, 20 ≤ v ∧ v ≤ 12000) ∧
    (∀ v ∈ PartB.PAN_SAFE, -1 ≤ v ∧ v ≤ 1) ∧
    (∀ sqrtFn : ℚ → ℚ, ∀ v ∈ PartB.GAIN_SAFE sqrtFn, 0 ≤ v ∧ v ≤ 1) ∧
    (∀ v ∈ PartB.ROOTS_SAFE, 36 ≤ v ∧ v ≤ 96) ∧
    (∀ v ∈ PartB.THIRDS_SAFE, 36 ≤ v ∧ v ≤ 96) ∧
    (∀ v ∈ PartB.FIFTHS_SAFE, 36 ≤ v ∧ v ≤ 96) := by
  refine ⟨fun arr lo hi h => clampArr_mem_bounds arr lo hi h,
    clampArr_mem_bounds _ _ _ (by norm_num),
    clampArr_mem_bounds _ _ _ (by norm_num),
    fun sinFn atan2Fn => clampArr_mem_bounds _ _ _ (by norm_num),
    fun sqrtFn sinFn => clampArr_mem_bounds _ _ _ (by norm_num),
    clampArr_mem_bounds _ _ _ (by norm_num),
    clampArr_mem_bounds _ _ _ (by norm_num),
    clampArr_mem_bounds _ _ _ (by norm_num),
    clampArr_mem_bounds _ _ _ (by norm_num),
    clampArr_mem_bounds _ _ _ (by norm_num),
    fun sqrtFn => clampArr_mem_bounds _ _ _ (by norm_num),
    clampArr_mem_bounds _ _ _ (by norm_num),
    clampArr_mem_bounds _ _ _ (by norm_num),
    clampArr_mem_bounds _ _ _ (by norm_num)⟩

/-- C2: the trajectory is the orbit of the classic four-stage RK4 update of
the Lorenz vector field from `(1,1,1)`: its first state is one RK4 step from
the initial condition, and each later state is one RK4 step from its
predecessor. -/
theorem claim2_rk4_trajectory (N : ℕ) (h sigma rho beta : ℚ) :
    (1 ≤ N → (Funky.lorenz N h sigma rho beta)[0]? =
       some (rk4Step h (lorenzField sigma rho beta) ⟨1, 1, 1⟩)) ∧
    (∀ i, 1 ≤ i → i < N →
       (Funky.lorenz N h sigma rho beta)[i]? =
         ((Funky.lorenz N h sigma rho beta)[i - 1]?).map
           (rk4Step h (lorenzField sigma rho beta))) := by
  have hfun : Funky.lorenzStep sigma rho beta h =
      rk4Step h (lorenzField sigma rho beta) :=
    funext (lorenzStep_eq_rk4 sigma rho beta h)
  constructor
  · intro hN
    rw [Funky.lorenz, lorenzGo_getElem? sigma rho beta h N 0 _ (by omega), hfun]
    rfl
  · intro i h1 hiN
    rw [Funky.lorenz, lorenzGo_getElem? sigma rho beta h N i _ hiN,
      lorenzGo_getElem? sigma rho beta h N (i - 1) _ (by omega), hfun,
      Option.map_some',
      ← Function.iterate_succ_apply' (rk4Step h (lorenzField sigma rho beta))
        (i - 1 + 1) (⟨1, 1, 1⟩ : P3)]
    have he : (i - 1 + 1).succ = i + 1 := by omega
    rw [he]

/-- C3: `norm` keeps the length, lands in `[0,1]`, replaces each non-finite
element by the neutral midpoint `0.5`, and min–max scales each finite element
over the finite samples whenever their range is non-degenerate. -/
theorem claim3_norm_minmax (arr : List JSNum) :
    (norm arr).length = arr.length ∧
    (∀ v ∈ norm arr, 0 ≤ v ∧ v ≤ 1) ∧
    (∀ (i : ℕ) (v : JSNum), arr[i]? = some v → v.isFinite = false →
       (norm arr)[i]? = some (1/2)) ∧
    (∀ mn mx : ℚ,
       (mn ∈ arr.filterMap JSNum.toQ? ∧ ∀ q ∈ arr.filterMap JSNum.toQ?, mn ≤ q) →
       (mx ∈ arr.filterMap JSNum.toQ? ∧ ∀ q ∈ arr.filterMap JSNum.toQ?, q ≤ mx) →
       mn ≠ mx →
       ∀ (i : ℕ) (q : ℚ), arr[i]? = some (.num q) →
         (norm arr)[i]? = some ((q - mn) / (mx - mn))) :=
  ⟨norm_length arr, norm_mem_unit arr,
   fun i v hv hnf => norm_nonfinite arr i v hv hnf,
   fun mn mx hmn hmx hne i q hq => norm_scaled arr mn mx hmn hmx hne i q hq⟩

/-- C4: normalizing a non-empty constant array yields an array of the same
length whose every element is the neutral midpoint `0.5`. -/
theorem claim4_norm_const_midpoint (arr : List JSNum) (c : JSNum)
    (_hne : arr ≠ []) (hc : ∀ v ∈ arr, v = c) :
    (norm arr).length = arr.length ∧ ∀ v ∈ norm arr, v = 1/2 := by
  have h := norm_const arr c hc
  constructor
  · exact norm_length arr
  · intro v hv
    rw [h] at hv
    rcases List.mem_map.mp hv with ⟨w, -, rfl⟩
    rfl

/-- C5: `diff` keeps the length, starts with `0`, and holds the first
differences `arr[i] - arr[i-1]` at every later index. -/
theorem claim5_diff_first_differences (arr : List ℚ) :
    (diff arr).length = arr.length ∧
    (arr ≠ [] → (diff arr)[0]? = some 0) ∧
    (∀ i, 1 ≤ i → i < arr.length →
       (diff arr)[i]? = some (arr.getD i 0 - arr.getD (i-1) 0)) :=
  ⟨diff_length arr, fun h => diff_head arr h,
   fun i h1 h2 => diff_succ arr i h1 h2⟩

/-- C6: `lorenz` (either file's) returns exactly `N` states for step count
`N`; in particular integrating for `0` steps yields the empty trajectory. -/
theorem claim6_trajectory_length (N : ℕ) (h sigma rho beta : ℚ) :
    (Funky.lorenz N h sigma rho beta).length = N ∧
    (PartB.lorenz N h sigma rho beta).length = N ∧
    Funky.lorenz 0 h sigma rho beta = [] ∧
    PartB.lorenz 0 h sigma rho beta = [] := by
  refine ⟨lorenzGo_length sigma rho beta h N _, ?_, rfl, rfl⟩
  rw [PartB.lorenz, ← lorenzGo_funky_eq_partB]
  exact lorenzGo_length sigma rho beta h N _

/-- C7: `lorenz` is deterministic — two invocations with equal step count,
step size and constants yield equal trajectories, in particular an identical
first state. -/
theorem claim7_deterministic (N : ℕ) (h sigma rho beta : ℚ) :
    (∀ t1 t2 : List P3,
       t1 = Funky.lorenz N h sigma rho beta →
       t2 = Funky.lorenz N h sigma rho beta → t1 = t2 ∧ t1[0]? = t2[0]?) ∧
    (∀ t1 t2 : List P3,
       t1 = PartB.lorenz N h sigma rho beta →
       t2 = PartB.lorenz N h sigma rho beta → t1 = t2 ∧ t1[0]? = t2[0]?) := by
  constructor
  · rintro t1 t2 rfl rfl
    exact ⟨rfl, rfl⟩
  · rintro t1 t2 rfl rfl
    exact ⟨rfl, rfl⟩

/-- C8: every pipeline operation is a total function — for arbitrary inputs,
including non-finite elements, it returns an output of the expected shape —
and the sole numeric failure mode is handled by substituting a default value
in place (`safeNum`'s default, `norm`'s midpoint), never by raising. -/
theorem claim8_total_with_defaults :
    (∀ (N : ℕ) (h sigma rho beta : ℚ),
       (Funky.lorenz N h sigma rho beta).length = N ∧
       (PartB.lorenz N h sigma rho beta).length = N) ∧
    (∀ arr : List JSNum, (norm arr).length = arr.length) ∧
    (∀ (arr : List JSNum) (i : ℕ) (v : JSNum),
       arr[i]? = some v → v.isFinite = false → (norm arr)[i]? = some (1/2)) ∧
    (∀ arr : List ℚ, (diff arr).length = arr.length) ∧
    (∀ (v : JSNum) (d : ℚ), v.isFinite = false → safeNum v d = d) ∧
    (∀ (arr : List JSNum) (d : ℚ), (safeArr arr d).length = arr.length) ∧
    (∀ (arr : List JSNum) (lo hi : ℚ), (clampArr arr lo hi).length = arr.length) ∧
    (∀ sqrtFn : ℚ → ℚ, (Funky.rawSpd sqrtFn).length = Funky.pts.length) ∧
    (∀ sqrtFn : ℚ → ℚ, (PartB.rawSpd sqrtFn).length = PartB.pts.length) ∧
    (∀ (sinFn : ℚ → ℚ) (atan2Fn : ℚ → ℚ → ℚ),
       (Funky.pan sinFn atan2Fn).length = Funky.xs.length) ∧
    Funky.notes.length = Funky.xs.length ∧
    PartB.notes.length = PartB.xs.length := by
  refine ⟨?_, norm_length, fun arr i v hv hnf => norm_nonfinite arr i v hv hnf,
    diff_length, ?_, safeArr_length, clampArr_length, ?_, ?_, ?_, ?_, ?_⟩
  · intro N h sigma rho beta
    refine ⟨lorenzGo_length sigma rho beta h N _, ?_⟩
    rw [PartB.lorenz, ← lorenzGo_funky_eq_partB]
    exact lorenzGo_length sigma rho beta h N _
  · intro v d hnf
    exact safeNum_of_not_finite v d (by simp [hnf])
  · intro sqrtFn; simp [Funky.rawSpd]
  · intro sqrtFn; simp [PartB.rawSpd]
  · intro sinFn atan2Fn; simp [Funky.pan]
  · exact notesOf_length Funky.xs Funky.ys
  · simp [PartB.notes]

/-- C9: at any index where the normalized x-coordinate (or the normalized
y-coordinate) is exactly `1` — attained at the maximum sample of every
non-constant axis — `Math.floor(v * scale.length)` indexes one past the end
of `scale` (resp. `octaves`), the note is `NaN`, and the sanitize stage
replaces it with the default `0` and clamps it to the lower bound `36`. -/
theorem claim9_note_dropout_at_one :
    (∀ (xs ys : List ℚ) (i : ℕ), i < xs.length →
       (xs[i]? = some 1 ∨ ys[i]? = some 1) →
       (Funky.notesOf xs ys)[i]? = some .nan ∧
       (clampArr (Funky.notesOf xs ys) 36 96)[i]? = some 36) ∧
    (∀ l : List ℚ, (∃ a ∈ l, ∃ b ∈ l, a ≠ b) →
       ∃ i : ℕ, (normQ l)[i]? = some 1) ∧
    (∀ i : ℕ, i < Funky.xs.length →
       (Funky.xs[i]? = some 1 ∨ Funky.ys[i]? = some 1) →
       Funky.NOTES_SAFE[i]? = some 36) := by
  have hgen : ∀ (xs ys : List ℚ) (i : ℕ), i < xs.length →
      (xs[i]? = some 1 ∨ ys[i]? = some 1) →
      (Funky.notesOf xs ys)[i]? = some .nan ∧
      (clampArr (Funky.notesOf xs ys) 36 96)[i]? = some 36 := by
    intro xs ys i hi h
    have hnan := notesOf_nan xs ys i hi h
    exact ⟨hnan, clampArr_at_nan _ i hnan⟩
  refine ⟨hgen, normQ_attains_one, ?_⟩
  intro i hi h
  exact (hgen Funky.xs Funky.ys i hi h).2

/-- C10: the two files' `lorenz` integrators are extensionally equal — for
every step count, step size and constants, they return identical
trajectories. -/
theorem claim10_integrators_equal (steps : ℕ) (dt sigma rho beta : ℚ) :
    Funky.lorenz steps dt sigma rho beta = PartB.lorenz steps dt sigma rho beta := by
  rw [Funky.lorenz, PartB.lorenz, lorenzGo_funky_eq_partB]

end SL

/-! ## Concrete witnesses -/

theorem claim1_witness :
    (36 : ℚ) ≤ 36 ∧ (36 : ℚ) ≤ 96 :=
  SL.claim1_control_series_bounded.1 [SL.JSNum.nan] 36 96 (by norm_num) 36 (by decide)

theorem claim2_witness :
    (SL.Funky.lorenz 1 (1/100) 10 28 (8/3))[0]? =
      some (SL.rk4Step (1/100) (SL.lorenzField 10 28 (8/3)) ⟨1, 1, 1⟩) :=
  (SL.claim2_rk4_trajectory 1 (1/100) 10 28 (8/3)).1 (by norm_num)

theorem claim3_witness :
    (SL.norm [SL.JSNum.num 0, SL.JSNum.nan, SL.JSNum.num 2])[1]? = some (1/2) :=
  (SL.claim3_norm_minmax [SL.JSNum.num 0, SL.JSNum.nan, SL.JSNum.num 2]).2.2.1
    1 SL.JSNum.nan rfl rfl

theorem claim4_witness :
    (SL.norm [SL.JSNum.num 7, SL.JSNum.num 7]).length =
      [SL.JSNum.num 7, SL.JSNum.num 7].length :=
  (SL.claim4_norm_const_midpoint [SL.JSNum.num 7, SL.JSNum.num 7] (SL.JSNum.num 7)
    (by decide) (by decide)).1

theorem claim5_witness :
    (SL.diff [3, 5, 2])[1]? =
      some (([3, 5, 2] : List ℚ).getD 1 0 - ([3, 5, 2] : List ℚ).getD 0 0) :=
  (SL.claim5_diff_first_differences [3, 5, 2]).2.2 1 (by norm_num) (by norm_num)

theorem claim7_witness :
    SL.Funky.lorenz 1 (1/100) 10 28 (8/3) = SL.Funky.lorenz 1 (1/100) 10 28 (8/3) ∧
    (SL.Funky.lorenz 1 (1/100) 10 28 (8/3))[0]? =
      (SL.Funky.lorenz 1 (1/100) 10 28 (8/3))[0]? :=
  (SL.claim7_deterministic 1 (1/100) 10 28 (8/3)).1 _ _ rfl rfl

theorem claim8_witness :
    (SL.norm [SL.JSNum.inf])[0]? = some (1/2) :=
  SL.claim8_total_with_defaults.2.2.1 [SL.JSNum.inf] 0 SL.JSNum.inf rfl rfl

theorem claim9_witness :
    (SL.Funky.notesOf [0, 1] [0, 0])[1]? = some SL.JSNum.nan ∧
    (SL.clampArr (SL.Funky.notesOf [0, 1] [0, 0]) 36 96)[1]? = some 36 :=
  SL.claim9_note_dropout_at_one.1 [0, 1] [0, 0] 1 (by norm_num) (Or.inl (by decide))
